import Mathlib

/-!
Verification development for the WSUM permutation-test module
(`run_perm` and `wsum` in `_method_wsum.py`).

Matrices are embedded row-major as `List (List ℚ)`; machine floats become
exact rationals, and the two genuinely real-valued outputs (`norm`, which
takes a square root, and `corr`, which takes a log10) live in `ℝ`.

The cupy global random generator is embedded as an explicit state `Rng`
(seed paired with a draw counter) threaded through the computation; the
behaviour of `cp.random.shuffle` is abstracted as a parameter
`shuf : Rng → List ℕ → List ℕ × Rng` (given the generator state and the
current content of the index buffer, produce the reshuffled buffer and the
advanced generator state).  `cp.random.seed(s)` resets the state to
`seedRng s`.
-/

abbrev Mat : Type := List (List ℚ)

abbrev Rng : Type := ℕ × ℕ

/-- The generator state immediately after `cp.random.seed seed`. -/
def seedRng (seed : ℕ) : Rng := (seed, 0)

/-- Abstract model of `cp.random.shuffle` acting on the index buffer. -/
abbrev Shuffle : Type := Rng → List ℕ → List ℕ × Rng

/-- Number of columns of a row-major matrix (`shape[1]`). -/
def nCols (A : Mat) : ℕ := (A.headD []).length

/-- Dot product of two equal-length vectors. -/
def dotL (xs ys : List ℚ) : ℚ := (List.zipWith (· * ·) xs ys).sum

/-- Matrix product `A.dot(B)`; the result always has `A.length` rows of
`nCols B` entries each. -/
def matMul (A B : Mat) : Mat :=
  A.map (fun r => (List.range (nCols B)).map (fun j => dotL r (B.map (fun w => w.getD j 0))))

/-- Fancy row indexing `B[idxs]`. -/
def rowsIdx (B : Mat) (idxs : List ℕ) : Mat := idxs.map (fun i => B.getD i [])

/-- Elementwise combination of two matrices of equal shape. -/
def map2 (f : ℚ → ℚ → ℚ) (A B : Mat) : Mat := List.zipWith (List.zipWith f) A B

/-- Elementwise sum (`+=` on cupy arrays). -/
def addMat (A B : Mat) : Mat := map2 (· + ·) A B

/-- `cp.zeros((m, p))`. -/
def zeros (m p : ℕ) : Mat := List.replicate m (List.replicate p 0)

/-- Elementwise absolute value (`cp.abs`). -/
def absMat (A : Mat) : Mat := A.map (List.map (fun x => |x|))

/-- Elementwise strict comparison `|permuted| > abs_estimate` as a 0/1 matrix
(the boolean array that `pvals +=` adds). -/
def exceedMat (P E : Mat) : Mat :=
  map2 (fun p e => if e < p then 1 else 0) (absMat P) E

/-- Elementwise square (`permuted**2`). -/
def sqMat (A : Mat) : Mat := A.map (List.map (fun x => x * x))

/-- Elementwise map by a scalar function. -/
def mapMat (f : ℚ → ℚ) (A : Mat) : Mat := A.map (List.map f)

/-- Entry `A[i][j]` of a rational matrix, with 0 outside the shape. -/
def entry (A : Mat) (i j : ℕ) : ℚ := (A.getD i []).getD j 0

/-- Entry `A[i][j]` of a real matrix, with 0 outside the shape. -/
def entryR (A : List (List ℝ)) (i j : ℕ) : ℝ := (A.getD i []).getD j 0

/-- Accumulator state of the permutation loop in `run_perm`: the three
running matrices, the index buffer (mutated in place) and the generator. -/
structure PermAcc where
  pvals : Mat
  sum_permuted : Mat
  sum_squares_permuted : Mat
  idxs : List ℕ
  g : Rng

/-- One iteration of the loop in `run_perm`: shuffle the index buffer,
form `permuted = mat.dot(net[idxs])`, and accumulate. -/
def permIter (shuf : Shuffle) (mat net abs_estimate : Mat) (a : PermAcc) : PermAcc :=
  let s := shuf a.g a.idxs
  let permuted := matMul mat (rowsIdx net s.1)
  { pvals := addMat a.pvals (exceedMat permuted abs_estimate)
    sum_permuted := addMat a.sum_permuted permuted
    sum_squares_permuted := addMat a.sum_squares_permuted (sqMat permuted)
    idxs := s.1
    g := s.2 }

/-- The `for i in range(times)` loop of `run_perm`. -/
def permLoop (shuf : Shuffle) (mat net abs_estimate : Mat) : ℕ → PermAcc → PermAcc
  | 0, a => a
  | n + 1, a => permLoop shuf mat net abs_estimate n (permIter shuf mat net abs_estimate a)

/-- The p-value post-processing of `run_perm`, stage by stage exactly as in
the source: replace counts of 0 by 1, counts of `times` by `times - 1`,
divide by `times`, reflect values `≥ 1/2`, and double. -/
def pvalsFromCounts (times : ℕ) (counts : Mat) : Mat :=
  let p1 := mapMat (fun c => if c = 0 then 1 else c) counts
  let p2 := mapMat (fun c => if c = (times : ℚ) then (times : ℚ) - 1 else c) p1
  let p3 := mapMat (fun c => c / (times : ℚ)) p2
  let p4 := mapMat (fun q => if (1 : ℚ) / 2 ≤ q then 1 - q else q) p3
  mapMat (fun q => q * 2) p4

/-- `mean_permuted = sum_permuted / times`. -/
def meanOf (times : ℕ) (sum_permuted : Mat) : Mat :=
  mapMat (fun s => s / (times : ℚ)) sum_permuted

/-- `variance_permuted = sum_squares_permuted/times - mean**2 * times/(times-1)`. -/
def varOf (times : ℕ) (sum_squares_permuted mean_permuted : Mat) : Mat :=
  map2 (fun s mu => s / (times : ℚ) - mu * mu * (times : ℚ) / ((times : ℚ) - 1))
    sum_squares_permuted mean_permuted

/-- `norm = (estimate - mean_permuted) / cp.sqrt(variance_permuted)`. -/
noncomputable def normOf (estimate mean_permuted variance_permuted : Mat) : List (List ℝ) :=
  List.zipWith (List.zipWith (fun (d v : ℚ) => (d : ℝ) / Real.sqrt (v : ℝ)))
    (map2 (fun e mu => e - mu) estimate mean_permuted) variance_permuted

/-- `corr = estimate * -cp.log10(pvals)`. -/
noncomputable def corrOf (estimate pvals : Mat) : List (List ℝ) :=
  List.zipWith (List.zipWith (fun (e q : ℚ) => (e : ℝ) * (-Real.logb 10 (q : ℝ))))
    estimate pvals

/-- Return value of `run_perm`, together with the two side effects: the
final content of the shared index buffer and the final generator state. -/
structure RunPermOut where
  estimate : Mat
  norm : List (List ℝ)
  corr : List (List ℝ)
  pvals : Mat
  idxs : List ℕ
  g : Rng

/-- Shallow embedding of `run_perm(mat, net, idxs, times, seed)`.  The
incoming generator state `g` is overwritten by `cp.random.seed(seed)`
before any draw, so no output component depends on it. -/
noncomputable def run_perm (shuf : Shuffle) (mat net : Mat) (idxs : List ℕ)
    (times seed : ℕ) (_g : Rng) : RunPermOut :=
  let estimate := matMul mat net
  let m := mat.length
  let p := nCols net
  let a := permLoop shuf mat net (absMat estimate) times
    ⟨zeros m p, zeros m p, zeros m p, idxs, seedRng seed⟩
  let pvals := pvalsFromCounts times a.pvals
  let mean_permuted := meanOf times a.sum_permuted
  let variance_permuted := varOf times a.sum_squares_permuted mean_permuted
  { estimate := estimate
    norm := normOf estimate mean_permuted variance_permuted
    corr := corrOf estimate pvals
    pvals := pvals
    idxs := a.idxs
    g := a.g }

/-- A dense or CSR-sparse input to `wsum`; sparse slices densify to the same
row data, so both constructors carry the abstract row-major content. -/
inductive MatInput : Type
  | dense (m : Mat)
  | sparse (m : Mat)

/-- The row-major content of the input. -/
def MatInput.rows : MatInput → Mat
  | .dense m => m
  | .sparse m => m

/-- Return value of `wsum`: `norm`, `corr` and `pvals` are `none` when
`times ≤ 1`. -/
structure WsumOut where
  estimate : Mat
  norm : Option (List (List ℝ))
  corr : Option (List (List ℝ))
  pvals : Option Mat

/-- Type of the permutation engine invoked per batch by `wsum`
(abstracting over `run_perm` to reason about which calls are reachable). -/
abbrev Engine : Type :=
  Mat → Mat → List ℕ → ℕ → ℕ → Rng → RunPermOut

/-- The loop state of the sparse branch of `wsum`: the four output
accumulators plus the shared index buffer and generator state. -/
structure BatchState where
  estimate : Mat
  norm : List (List ℝ)
  corr : List (List ℝ)
  pvals : Mat
  idxs : List ℕ
  g : Rng

/-- One iteration of the batch loop of `wsum`: slice rows
`[i*batch_size, i*batch_size + batch_size)`, densify, and either run the
engine or the plain product depending on `times > 1`. -/
def wsumBatchStep (engine : Engine) (mat net : Mat) (times batch_size seed : ℕ)
    (st : BatchState) (i : ℕ) : BatchState :=
  let tmp := (mat.drop (i * batch_size)).take batch_size
  if 1 < times then
    let r := engine tmp net st.idxs times seed st.g
    ⟨st.estimate ++ r.estimate, st.norm ++ r.norm, st.corr ++ r.corr,
      st.pvals ++ r.pvals, r.idxs, r.g⟩
  else
    ⟨st.estimate ++ matMul tmp net, st.norm, st.corr, st.pvals, st.idxs, st.g⟩

/-- Shallow embedding of `wsum(mat, net, times, batch_size, seed)`,
parameterised by the permutation engine.  `g` is the ambient generator
state at call time.  The index buffer is freshly initialised to
`arange(n_features)` (with `n_features = net.shape[0]`) on every call. -/
def wsumWith (engine : Engine) (input : MatInput) (net : Mat)
    (times batch_size seed : ℕ) (g : Rng) : WsumOut :=
  let idxs0 := List.range net.length
  match input with
  | .sparse mat =>
      let n_batches := (mat.length + batch_size - 1) / batch_size
      let fin := (List.range n_batches).foldl
        (wsumBatchStep engine mat net times batch_size seed)
        ⟨[], [], [], [], idxs0, g⟩
      if 1 < times then
        ⟨fin.estimate, some fin.norm, some fin.corr, some fin.pvals⟩
      else
        ⟨fin.estimate, none, none, none⟩
  | .dense mat =>
      if 1 < times then
        let r := engine mat net idxs0 times seed g
        ⟨r.estimate, some r.norm, some r.corr, some r.pvals⟩
      else
        ⟨matMul mat net, none, none, none⟩

/-- Shallow embedding of `wsum` proper, with `run_perm` as the engine. -/
noncomputable def wsum (shuf : Shuffle) (input : MatInput) (net : Mat)
    (times batch_size seed : ℕ) (g : Rng) : WsumOut :=
  wsumWith (run_perm shuf) input net times batch_size seed g

/-! ## Shapes and entries -/

/-- A row-major matrix with `m` rows, each of `p` entries. -/
def Shaped {α : Type*} (m p : ℕ) (A : List (List α)) : Prop :=
  A.length = m ∧ ∀ r ∈ A, r.length = p

theorem shaped_zipWith {α β γ : Type*} (f : α → β → γ) {m p : ℕ}
    {A : List (List α)} {B : List (List β)}
    (hA : Shaped m p A) (hB : Shaped m p B) :
    Shaped m p (List.zipWith (List.zipWith f) A B) := by
  have hlen : (List.zipWith (List.zipWith f) A B).length = m := by
    rw [List.length_zipWith, hA.1, hB.1, inf_idem]
  constructor
  · exact hlen
  · intro r hr
    rcases List.mem_iff_getElem.1 hr with ⟨i, hi, rfl⟩
    rw [List.getElem_zipWith]
    have hiA : i < A.length := by rw [hA.1, ← hlen]; exact hi
    have hiB : i < B.length := by rw [hB.1, ← hlen]; exact hi
    rw [List.length_zipWith, hA.2 _ (List.getElem_mem hiA), hB.2 _ (List.getElem_mem hiB),
      inf_idem]

theorem shaped_map {α β : Type*} (f : α → β) {m p : ℕ} {A : List (List α)}
    (hA : Shaped m p A) : Shaped m p (A.map (List.map f)) := by
  constructor
  · simp [hA.1]
  · intro r hr
    rcases List.mem_map.1 hr with ⟨a, ha, rfl⟩
    simp [hA.2 a ha]

theorem shaped_matMul (A B : Mat) : Shaped A.length (nCols B) (matMul A B) := by
  constructor
  · simp [matMul]
  · intro r hr
    rcases List.mem_map.1 hr with ⟨a, _, rfl⟩
    simp

theorem shaped_zeros {m p : ℕ} : Shaped m p (zeros m p) := by
  constructor
  · simp [zeros]
  · intro r hr
    simp [zeros, List.eq_of_mem_replicate hr]

theorem shaped_map2 (f : ℚ → ℚ → ℚ) {m p : ℕ} {A B : Mat}
    (hA : Shaped m p A) (hB : Shaped m p B) : Shaped m p (map2 f A B) :=
  shaped_zipWith f hA hB

theorem shaped_mapMat (f : ℚ → ℚ) {m p : ℕ} {A : Mat} (hA : Shaped m p A) :
    Shaped m p (mapMat f A) := shaped_map f hA

theorem shaped_absMat {m p : ℕ} {A : Mat} (hA : Shaped m p A) :
    Shaped m p (absMat A) := shaped_map _ hA

theorem shaped_addMat {m p : ℕ} {A B : Mat} (hA : Shaped m p A) (hB : Shaped m p B) :
    Shaped m p (addMat A B) := shaped_map2 _ hA hB

theorem shaped_sqMat {m p : ℕ} {A : Mat} (hA : Shaped m p A) :
    Shaped m p (sqMat A) := shaped_map _ hA

theorem shaped_exceedMat {m p : ℕ} {P E : Mat} (hP : Shaped m p P) (hE : Shaped m p E) :
    Shaped m p (exceedMat P E) := shaped_map2 _ (shaped_absMat hP) hE

theorem getD2_zipWith {α β γ : Type*} (f : α → β → γ) {m p : ℕ}
    {A : List (List α)} {B : List (List β)}
    (hA : Shaped m p A) (hB : Shaped m p B) {i j : ℕ} (hi : i < m) (hj : j < p)
    (dα : α) (dβ : β) (dγ : γ) :
    ((List.zipWith (List.zipWith f) A B).getD i []).getD j dγ
      = f ((A.getD i []).getD j dα) ((B.getD i []).getD j dβ) := by
  have hiA : i < A.length := hA.1 ▸ hi
  have hiB : i < B.length := hB.1 ▸ hi
  have hiZ : i < (List.zipWith (List.zipWith f) A B).length := by
    simp [List.length_zipWith, hA.1, hB.1]; omega
  rw [List.getD_eq_getElem _ _ hiZ, List.getD_eq_getElem _ _ hiA, List.getD_eq_getElem _ _ hiB]
  rw [List.getElem_zipWith]
  have hjA : j < A[i].length := by rw [hA.2 _ (List.getElem_mem hiA)]; exact hj
  have hjB : j < B[i].length := by rw [hB.2 _ (List.getElem_mem hiB)]; exact hj
  have hjZ : j < (List.zipWith f A[i] B[i]).length := by
    simp [List.length_zipWith]; omega
  rw [List.getD_eq_getElem _ _ hjZ, List.getD_eq_getElem _ _ hjA, List.getD_eq_getElem _ _ hjB]
  rw [List.getElem_zipWith]

theorem getD2_map {α β : Type*} (f : α → β) {m p : ℕ} {A : List (List α)}
    (hA : Shaped m p A) {i j : ℕ} (hi : i < m) (hj : j < p) (dα : α) (dβ : β) :
    ((A.map (List.map f)).getD i []).getD j dβ = f ((A.getD i []).getD j dα) := by
  have hiA : i < A.length := hA.1 ▸ hi
  have hiM : i < (A.map (List.map f)).length := by simpa using hiA
  rw [List.getD_eq_getElem _ _ hiM, List.getD_eq_getElem _ _ hiA, List.getElem_map]
  have hjA : j < A[i].length := by rw [hA.2 _ (List.getElem_mem hiA)]; exact hj
  have hjM : j < (A[i].map f).length := by simpa using hjA
  rw [List.getD_eq_getElem _ _ hjM, List.getD_eq_getElem _ _ hjA, List.getElem_map]

theorem entry_map2 (f : ℚ → ℚ → ℚ) {m p : ℕ} {A B : Mat}
    (hA : Shaped m p A) (hB : Shaped m p B) {i j : ℕ} (hi : i < m) (hj : j < p) :
    entry (map2 f A B) i j = f (entry A i j) (entry B i j) :=
  getD2_zipWith f hA hB hi hj 0 0 0

theorem entry_mapMat (f : ℚ → ℚ) {m p : ℕ} {A : Mat}
    (hA : Shaped m p A) {i j : ℕ} (hi : i < m) (hj : j < p) :
    entry (mapMat f A) i j = f (entry A i j) :=
  getD2_map f hA hi hj 0 0

theorem entry_addMat {m p : ℕ} {A B : Mat} (hA : Shaped m p A) (hB : Shaped m p B)
    {i j : ℕ} (hi : i < m) (hj : j < p) :
    entry (addMat A B) i j = entry A i j + entry B i j :=
  entry_map2 _ hA hB hi hj

theorem entry_absMat {m p : ℕ} {A : Mat} (hA : Shaped m p A)
    {i j : ℕ} (hi : i < m) (hj : j < p) :
    entry (absMat A) i j = |entry A i j| :=
  getD2_map _ hA hi hj 0 0

theorem entry_sqMat {m p : ℕ} {A : Mat} (hA : Shaped m p A)
    {i j : ℕ} (hi : i < m) (hj : j < p) :
    entry (sqMat A) i j = entry A i j * entry A i j :=
  getD2_map _ hA hi hj 0 0

theorem entry_exceedMat {m p : ℕ} {P E : Mat} (hP : Shaped m p P) (hE : Shaped m p E)
    {i j : ℕ} (hi : i < m) (hj : j < p) :
    entry (exceedMat P E) i j = if entry E i j < |entry P i j| then 1 else 0 := by
  unfold exceedMat
  rw [entry_map2 _ (shaped_absMat hP) hE hi hj, entry_absMat hP hi hj]

theorem entry_zeros {m p i j : ℕ} : entry (zeros m p) i j = 0 := by
  unfold entry zeros
  by_cases hi : i < m
  · have hi' : i < (List.replicate m (List.replicate p (0 : ℚ))).length := by simpa using hi
    have h1 : (List.replicate m (List.replicate p (0 : ℚ))).getD i [] = List.replicate p 0 := by
      rw [List.getD_eq_getElem _ _ hi', List.getElem_replicate]
    rw [h1]
    by_cases hj : j < p
    · have hj' : j < (List.replicate p (0 : ℚ)).length := by simpa using hj
      rw [List.getD_eq_getElem _ _ hj', List.getElem_replicate]
    · have hj' : (List.replicate p (0 : ℚ)).length ≤ j := by
        simpa using Nat.le_of_not_lt hj
      rw [List.getD_eq_default _ _ hj']
  · have hi' : (List.replicate m (List.replicate p (0 : ℚ))).length ≤ i := by
      simpa using Nat.le_of_not_lt hi
    rw [List.getD_eq_default _ _ hi']
    simp

theorem shaped_eq_of_entry {M : Mat} {m p : ℕ} (h : Shaped m p M) (f : ℕ → ℕ → ℚ)
    (he : ∀ i, i < m → ∀ j, j < p → entry M i j = f i j) :
    M = (List.range m).map (fun i => (List.range p).map (f i)) := by
  apply List.ext_getElem
  · simp [h.1]
  · intro i hi hi2
    have him : i < m := h.1 ▸ hi
    apply List.ext_getElem
    · simp [h.2 _ (List.getElem_mem hi)]
    · intro j hj hj2
      have hjp : j < p := by
        have := h.2 _ (List.getElem_mem hi); omega
      have hM : entry M i j = M[i][j] := by
        unfold entry
        rw [List.getD_eq_getElem _ _ hi, List.getD_eq_getElem _ _ hj]
      rw [← hM, he i him j hjp]
      simp [List.getElem_map, List.getElem_range]

/-! ## Specification-side description of the permutation test

These definitions follow the words of the specification ("over T
iterations, shuffling the permutation in place, computing
`permuted = mat · net[shuffled]`, counting elementwise the iterations
where `|permuted|` strictly exceeds `|estimate|`; then replacing a count
of 0 with 1 and a count of T with T-1, dividing by T, and folding
two-sided as `p = 2*min(p, 1-p)`"), to be compared with the source
embedding `run_perm`. -/

/-- One draw of the generator acting on the buffer. -/
def shufIter (shuf : Shuffle) (s : List ℕ × Rng) : List ℕ × Rng := shuf s.2 s.1

/-- Content of the index buffer used at iteration `t` (0-based), i.e. after
`t + 1` in-place shuffles following `cp.random.seed seed`. -/
def bufferAt (shuf : Shuffle) (idxs0 : List ℕ) (seed t : ℕ) : List ℕ :=
  ((shufIter shuf)^[t + 1] (idxs0, seedRng seed)).1

/-- The permuted statistic of iteration `t`: `mat · net[shuffled]`. -/
def specPermuted (shuf : Shuffle) (mat net : Mat) (idxs0 : List ℕ) (seed t : ℕ) : Mat :=
  matMul mat (rowsIdx net (bufferAt shuf idxs0 seed t))

/-- Number of iterations whose permuted statistic strictly exceeds the
estimate in absolute value, at entry `(i, j)`. -/
def specCount (shuf : Shuffle) (mat net : Mat) (idxs0 : List ℕ) (times seed i j : ℕ) : ℕ :=
  ((Finset.range times).filter
    (fun t => |entry (matMul mat net) i j| < |entry (specPermuted shuf mat net idxs0 seed t) i j|)).card

/-- Boundary correction from the specification: a count of 0 is treated as
1 and a count of `times` as `times - 1`. -/
def specCorrect (times c : ℕ) : ℚ :=
  if c = 0 then 1 else if c = times then (times : ℚ) - 1 else (c : ℚ)

/-- Two-sided empirical p-value from the specification:
`p = 2 * min(c/T, 1 - c/T)` after boundary correction. -/
def specPval (times c : ℕ) : ℚ :=
  2 * min (specCorrect times c / (times : ℚ)) (1 - specCorrect times c / (times : ℚ))

/-- The p-value matrix as described by the specification. -/
def specPvals (shuf : Shuffle) (mat net : Mat) (idxs0 : List ℕ) (times seed : ℕ) : Mat :=
  (List.range mat.length).map (fun i =>
    (List.range (nCols net)).map (fun j =>
      specPval times (specCount shuf mat net idxs0 times seed i j)))

/-- Sum of the permuted statistic over the iterations, at entry `(i, j)`. -/
def specSum (shuf : Shuffle) (mat net : Mat) (idxs0 : List ℕ) (times seed i j : ℕ) : ℚ :=
  ∑ t ∈ Finset.range times, entry (specPermuted shuf mat net idxs0 seed t) i j

/-- Sum of the squared permuted statistic over the iterations, at `(i, j)`. -/
def specSumSq (shuf : Shuffle) (mat net : Mat) (idxs0 : List ℕ) (times seed i j : ℕ) : ℚ :=
  ∑ t ∈ Finset.range times,
    entry (specPermuted shuf mat net idxs0 seed t) i j * entry (specPermuted shuf mat net idxs0 seed t) i j

/-! ## The permutation-loop invariant -/

/-- Initial accumulator state of the loop in `run_perm`. -/
def loopInit (mat net : Mat) (idxs0 : List ℕ) (seed : ℕ) : PermAcc :=
  ⟨zeros mat.length (nCols net), zeros mat.length (nCols net),
    zeros mat.length (nCols net), idxs0, seedRng seed⟩

theorem permLoop_eq_iterate (shuf : Shuffle) (mat net E : Mat) (n : ℕ) (a : PermAcc) :
    permLoop shuf mat net E n a = (permIter shuf mat net E)^[n] a := by
  induction n generalizing a with
  | zero => rfl
  | succ n ih =>
    rw [permLoop, ih, Function.iterate_succ_apply]

theorem permLoop_succ (shuf : Shuffle) (mat net E : Mat) (n : ℕ) (a : PermAcc) :
    permLoop shuf mat net E (n + 1) a
      = permIter shuf mat net E (permLoop shuf mat net E n a) := by
  rw [permLoop_eq_iterate, permLoop_eq_iterate, Function.iterate_succ_apply']

theorem permIter_buffer (shuf : Shuffle) (mat net E : Mat) (a : PermAcc) :
    ((permIter shuf mat net E a).idxs, (permIter shuf mat net E a).g)
      = shufIter shuf (a.idxs, a.g) := rfl

theorem permLoop_buffer (shuf : Shuffle) (mat net E : Mat) (idxs0 : List ℕ) (seed : ℕ)
    (pv sp sq : Mat) (n : ℕ) :
    ((permLoop shuf mat net E n ⟨pv, sp, sq, idxs0, seedRng seed⟩).idxs,
      (permLoop shuf mat net E n ⟨pv, sp, sq, idxs0, seedRng seed⟩).g)
      = (shufIter shuf)^[n] (idxs0, seedRng seed) := by
  induction n with
  | zero => rfl
  | succ n ih =>
    rw [permLoop_succ, permIter_buffer, ih, Function.iterate_succ_apply']

/-- The buffer stays a permutation of its initial content provided every
shuffle permutes its input. -/
theorem bufferAt_perm (shuf : Shuffle) (idxs0 : List ℕ) (seed : ℕ)
    (hshuf : ∀ g xs, (shuf g xs).1.Perm xs) (n : ℕ) :
    (((shufIter shuf)^[n] (idxs0, seedRng seed)).1).Perm idxs0 := by
  induction n with
  | zero => exact List.Perm.refl _
  | succ n ih =>
    rw [Function.iterate_succ_apply']
    exact (hshuf _ _).trans ih

/-- Rows selected from a rectangular matrix by valid indices keep the
column count. -/
theorem nCols_rowsIdx (net : Mat) (buf : List ℕ)
    (hnet : ∀ r ∈ net, r.length = nCols net)
    (hbuf : buf.Perm (List.range net.length)) :
    nCols (rowsIdx net buf) = nCols net := by
  cases buf with
  | nil =>
    have h0 : net.length = 0 := by
      have := hbuf.length_eq
      simpa using this.symm
    have : net = [] := List.length_eq_zero.1 h0
    subst this
    rfl
  | cons i bs =>
    have hi : i < net.length := by
      have : i ∈ List.range net.length := hbuf.mem_iff.1 (by simp)
      simpa [List.mem_range] using this
    have hrow : (net.getD i []).length = nCols net := by
      rw [List.getD_eq_getElem _ _ hi]
      exact hnet _ (List.getElem_mem hi)
    simpa [rowsIdx, nCols] using hrow

theorem permLoop_buffer_init (shuf : Shuffle) (mat net E : Mat) (idxs0 : List ℕ)
    (seed n : ℕ) :
    ((permLoop shuf mat net E n (loopInit mat net idxs0 seed)).idxs,
      (permLoop shuf mat net E n (loopInit mat net idxs0 seed)).g)
      = (shufIter shuf)^[n] (idxs0, seedRng seed) :=
  permLoop_buffer shuf mat net E idxs0 seed _ _ _ n

theorem shaped_specPermuted (shuf : Shuffle) (mat net : Mat) (idxs0 : List ℕ)
    (seed t : ℕ) (hnet : ∀ r ∈ net, r.length = nCols net)
    (hshuf : ∀ g xs, (shuf g xs).1.Perm xs)
    (hidx : idxs0.Perm (List.range net.length)) :
    Shaped mat.length (nCols net) (specPermuted shuf mat net idxs0 seed t) := by
  have hb : (bufferAt shuf idxs0 seed t).Perm (List.range net.length) := by
    have := bufferAt_perm shuf idxs0 seed hshuf (t + 1)
    exact (this.trans hidx)
  have h1 := shaped_matMul mat (rowsIdx net (bufferAt shuf idxs0 seed t))
  rw [nCols_rowsIdx net _ hnet hb] at h1
  exact h1

theorem specCount_succ (shuf : Shuffle) (mat net : Mat) (idxs0 : List ℕ)
    (seed i j n : ℕ) :
    specCount shuf mat net idxs0 (n + 1) seed i j
      = specCount shuf mat net idxs0 n seed i j
        + (if |entry (matMul mat net) i j|
              < |entry (specPermuted shuf mat net idxs0 seed n) i j| then 1 else 0) := by
  unfold specCount
  rw [Finset.range_succ, Finset.filter_insert]
  by_cases h : |entry (matMul mat net) i j|
      < |entry (specPermuted shuf mat net idxs0 seed n) i j|
  · rw [if_pos h, if_pos h, Finset.card_insert_of_not_mem]
    simp
  · rw [if_neg h, if_neg h, add_zero]

theorem permLoop_invariant (shuf : Shuffle) (mat net : Mat) (idxs0 : List ℕ) (seed : ℕ)
    (hnet : ∀ r ∈ net, r.length = nCols net)
    (hshuf : ∀ g xs, (shuf g xs).1.Perm xs)
    (hidx : idxs0.Perm (List.range net.length)) (n : ℕ) :
    Shaped mat.length (nCols net)
        (permLoop shuf mat net (absMat (matMul mat net)) n (loopInit mat net idxs0 seed)).pvals
    ∧ Shaped mat.length (nCols net)
        (permLoop shuf mat net (absMat (matMul mat net)) n (loopInit mat net idxs0 seed)).sum_permuted
    ∧ Shaped mat.length (nCols net)
        (permLoop shuf mat net (absMat (matMul mat net)) n (loopInit mat net idxs0 seed)).sum_squares_permuted
    ∧ ∀ i, i < mat.length → ∀ j, j < nCols net →
        entry (permLoop shuf mat net (absMat (matMul mat net)) n
            (loopInit mat net idxs0 seed)).pvals i j
          = (specCount shuf mat net idxs0 n seed i j : ℚ)
      ∧ entry (permLoop shuf mat net (absMat (matMul mat net)) n
            (loopInit mat net idxs0 seed)).sum_permuted i j
          = specSum shuf mat net idxs0 n seed i j
      ∧ entry (permLoop shuf mat net (absMat (matMul mat net)) n
            (loopInit mat net idxs0 seed)).sum_squares_permuted i j
          = specSumSq shuf mat net idxs0 n seed i j := by
  induction n with
  | zero =>
    refine ⟨shaped_zeros, shaped_zeros, shaped_zeros, ?_⟩
    intro i hi j hj
    refine ⟨?_, ?_, ?_⟩ <;>
      simp [permLoop, loopInit, entry_zeros, specCount, specSum, specSumSq]
  | succ n ih =>
    obtain ⟨hP, hS, hQ, hE⟩ := ih
    set L := permLoop shuf mat net (absMat (matMul mat net)) n (loopInit mat net idxs0 seed)
      with hL
    have hEstSh : Shaped mat.length (nCols net) (matMul mat net) := shaped_matMul mat net
    have hPermSh : Shaped mat.length (nCols net) (specPermuted shuf mat net idxs0 seed n) :=
      shaped_specPermuted shuf mat net idxs0 seed n hnet hshuf hidx
    have hs : shuf L.g L.idxs = (shufIter shuf)^[n + 1] (idxs0, seedRng seed) := by
      rw [show shuf L.g L.idxs = shufIter shuf (L.idxs, L.g) from rfl,
        permLoop_buffer_init shuf mat net (absMat (matMul mat net)) idxs0 seed n]
      exact (Function.iterate_succ_apply' _ _ _).symm
    have hb1 : (shuf L.g L.idxs).1 = bufferAt shuf idxs0 seed n := by
      rw [hs]; rfl
    have hperm : matMul mat (rowsIdx net (shuf L.g L.idxs).1)
        = specPermuted shuf mat net idxs0 seed n := by
      rw [hb1]; rfl
    rw [permLoop_succ, ← hL]
    have hpv : (permIter shuf mat net (absMat (matMul mat net)) L).pvals
        = addMat L.pvals (exceedMat (specPermuted shuf mat net idxs0 seed n)
            (absMat (matMul mat net))) := by
      simp only [permIter, hperm]
    have hsp : (permIter shuf mat net (absMat (matMul mat net)) L).sum_permuted
        = addMat L.sum_permuted (specPermuted shuf mat net idxs0 seed n) := by
      simp only [permIter, hperm]
    have hsq : (permIter shuf mat net (absMat (matMul mat net)) L).sum_squares_permuted
        = addMat L.sum_squares_permuted (sqMat (specPermuted shuf mat net idxs0 seed n)) := by
      simp only [permIter, hperm]
    rw [hpv, hsp, hsq]
    refine ⟨shaped_addMat hP (shaped_exceedMat hPermSh (shaped_absMat hEstSh)),
      shaped_addMat hS hPermSh, shaped_addMat hQ (shaped_sqMat hPermSh), ?_⟩
    intro i hi j hj
    obtain ⟨e1, e2, e3⟩ := hE i hi j hj
    refine ⟨?_, ?_, ?_⟩
    · rw [entry_addMat hP (shaped_exceedMat hPermSh (shaped_absMat hEstSh)) hi hj,
        entry_exceedMat hPermSh (shaped_absMat hEstSh) hi hj,
        entry_absMat hEstSh hi hj, e1, specCount_succ]
      split_ifs with h <;> push_cast <;> ring
    · rw [entry_addMat hS hPermSh hi hj, e2]
      simp [specSum, Finset.sum_range_succ]
    · rw [entry_addMat hQ (shaped_sqMat hPermSh) hi hj,
        entry_sqMat hPermSh hi hj, e3]
      simp [specSumSq, Finset.sum_range_succ]

/-! ## Scalar form of the p-value pipeline -/

/-- The per-entry p-value pipeline of `run_perm`, stage by stage. -/
def pvalScalar (times : ℕ) (c : ℚ) : ℚ :=
  let c1 := if c = 0 then 1 else c
  let c2 := if c1 = (times : ℚ) then (times : ℚ) - 1 else c1
  let q := c2 / (times : ℚ)
  let q2 := if (1 : ℚ) / 2 ≤ q then 1 - q else q
  q2 * 2

theorem entry_pvalsFromCounts {m p : ℕ} {C : Mat} (hC : Shaped m p C) (times : ℕ)
    {i j : ℕ} (hi : i < m) (hj : j < p) :
    entry (pvalsFromCounts times C) i j = pvalScalar times (entry C i j) := by
  unfold pvalsFromCounts
  have h1 : Shaped m p (mapMat (fun c => if c = 0 then 1 else c) C) := shaped_mapMat _ hC
  have h2 : Shaped m p (mapMat (fun c => if c = (times : ℚ) then (times : ℚ) - 1 else c)
      (mapMat (fun c => if c = 0 then 1 else c) C)) := shaped_mapMat _ h1
  have h3 : Shaped m p (mapMat (fun c => c / (times : ℚ))
      (mapMat (fun c => if c = (times : ℚ) then (times : ℚ) - 1 else c)
        (mapMat (fun c => if c = 0 then 1 else c) C))) := shaped_mapMat _ h2
  have h4 : Shaped m p (mapMat (fun q => if (1 : ℚ) / 2 ≤ q then 1 - q else q)
      (mapMat (fun c => c / (times : ℚ))
        (mapMat (fun c => if c = (times : ℚ) then (times : ℚ) - 1 else c)
          (mapMat (fun c => if c = 0 then 1 else c) C)))) := shaped_mapMat _ h3
  rw [entry_mapMat _ h4 hi hj, entry_mapMat _ h3 hi hj, entry_mapMat _ h2 hi hj,
    entry_mapMat _ h1 hi hj, entry_mapMat _ hC hi hj]
  rfl

/-- The reflect-and-double step equals the two-sided fold `2 * min(q, 1-q)`. -/
theorem reflect_double_eq_two_min (q : ℚ) :
    (if (1 : ℚ) / 2 ≤ q then 1 - q else q) * 2 = 2 * min q (1 - q) := by
  split_ifs with h
  · rw [min_eq_right (by linarith)]; ring
  · rw [min_eq_left (by linarith)]; ring

/-- The two sequential replacement stages equal the spec's boundary
correction, for counts out of `times ≥ 2` permutations. -/
theorem stages_eq_specCorrect (times c : ℕ) (h2 : 2 ≤ times) :
    (if (if (c : ℚ) = 0 then 1 else (c : ℚ)) = (times : ℚ) then (times : ℚ) - 1
      else if (c : ℚ) = 0 then 1 else (c : ℚ)) = specCorrect times c := by
  unfold specCorrect
  by_cases h0 : c = 0
  · subst h0
    have hne : (1 : ℚ) ≠ (times : ℚ) := by
      intro h
      have : (times : ℚ) ≥ 2 := by exact_mod_cast h2
      rw [← h] at this; norm_num at this
    simp [hne]
  · have h0' : (c : ℚ) ≠ 0 := by exact_mod_cast h0
    by_cases ht : c = times
    · subst ht
      simp [h0, h0']
    · have ht' : (c : ℚ) ≠ (times : ℚ) := by exact_mod_cast ht
      simp [h0, h0', ht, ht']

theorem pvalScalar_eq_specPval (times c : ℕ) (h2 : 2 ≤ times) :
    pvalScalar times (c : ℚ) = specPval times c := by
  simp only [pvalScalar]
  rw [stages_eq_specCorrect times c h2, reflect_double_eq_two_min]
  rfl

theorem specCorrect_bounds (times c : ℕ) (h2 : 2 ≤ times) (hc : c ≤ times) :
    1 ≤ specCorrect times c ∧ specCorrect times c ≤ (times : ℚ) - 1 := by
  have ht : (2 : ℚ) ≤ (times : ℚ) := by exact_mod_cast h2
  unfold specCorrect
  by_cases h0 : c = 0
  · rw [if_pos h0]
    constructor <;> linarith
  · rw [if_neg h0]
    by_cases htc : c = times
    · rw [if_pos htc]
      constructor <;> linarith
    · rw [if_neg htc]
      have h1 : 1 ≤ c := Nat.one_le_iff_ne_zero.2 h0
      have h1' : (1 : ℚ) ≤ (c : ℚ) := by exact_mod_cast h1
      have hlt : c < times := lt_of_le_of_ne hc htc
      have hle : c + 1 ≤ times := hlt
      have hle' : (c : ℚ) + 1 ≤ (times : ℚ) := by exact_mod_cast hle
      constructor <;> linarith

theorem specPval_bounds (times c : ℕ) (h2 : 2 ≤ times) (hc : c ≤ times) :
    2 / (times : ℚ) ≤ specPval times c ∧ specPval times c ≤ 1 := by
  obtain ⟨hlo, hhi⟩ := specCorrect_bounds times c h2 hc
  have htpos : (0 : ℚ) < (times : ℚ) := by
    have : (2 : ℚ) ≤ (times : ℚ) := by exact_mod_cast h2
    linarith
  set q := specCorrect times c / (times : ℚ) with hq
  have hqlo : 1 / (times : ℚ) ≤ q := by
    rw [hq]
    exact (div_le_div_iff_of_pos_right htpos).mpr hlo
  have hqhi : q ≤ ((times : ℚ) - 1) / (times : ℚ) := by
    rw [hq]
    exact (div_le_div_iff_of_pos_right htpos).mpr hhi
  have h1q : 1 / (times : ℚ) ≤ 1 - q := by
    have : ((times : ℚ) - 1) / (times : ℚ) = 1 - 1 / (times : ℚ) := by
      field_simp
    rw [this] at hqhi
    linarith
  constructor
  · unfold specPval
    rw [← hq]
    have hmin : 1 / (times : ℚ) ≤ min q (1 - q) := le_min hqlo h1q
    calc 2 / (times : ℚ) = 2 * (1 / (times : ℚ)) := by ring
    _ ≤ 2 * min q (1 - q) := by linarith
  · unfold specPval
    rw [← hq]
    have hmin : min q (1 - q) ≤ 1 / 2 := by
      rcases le_total q (1 - q) with h | h
      · rw [min_eq_left h]; linarith
      · rw [min_eq_right h]; linarith
    linarith

theorem specPval_eq_one_iff (times c : ℕ) (h2 : 2 ≤ times) :
    specPval times c = 1 ↔ specCorrect times c = (times : ℚ) / 2 := by
  have htpos : (0 : ℚ) < (times : ℚ) := by
    have : (2 : ℚ) ≤ (times : ℚ) := by exact_mod_cast h2
    linarith
  have htne : (times : ℚ) ≠ 0 := ne_of_gt htpos
  unfold specPval
  constructor
  · intro h
    rcases le_total (specCorrect times c / (times : ℚ))
        (1 - specCorrect times c / (times : ℚ)) with hle | hle
    · rw [min_eq_left hle] at h
      field_simp at h ⊢
      linarith
    · rw [min_eq_right hle] at h
      field_simp at h ⊢
      linarith
  · intro h
    rw [h]
    have hdiv : ((times : ℚ) / 2) / (times : ℚ) = 1 / 2 := by
      field_simp
      ring
    rw [hdiv]
    norm_num

theorem specCount_le (shuf : Shuffle) (mat net : Mat) (idxs0 : List ℕ)
    (times seed i j : ℕ) :
    specCount shuf mat net idxs0 times seed i j ≤ times := by
  unfold specCount
  calc ((Finset.range times).filter _).card
      ≤ (Finset.range times).card := Finset.card_filter_le _ _
    _ = times := Finset.card_range times

/-! ## Components of `run_perm` -/

theorem run_perm_estimate (shuf : Shuffle) (mat net : Mat) (idxs0 : List ℕ)
    (times seed : ℕ) (g : Rng) :
    (run_perm shuf mat net idxs0 times seed g).estimate = matMul mat net := rfl

theorem run_perm_pvals (shuf : Shuffle) (mat net : Mat) (idxs0 : List ℕ)
    (times seed : ℕ) (g : Rng) :
    (run_perm shuf mat net idxs0 times seed g).pvals
      = pvalsFromCounts times
          (permLoop shuf mat net (absMat (matMul mat net)) times
            (loopInit mat net idxs0 seed)).pvals := rfl

theorem run_perm_norm (shuf : Shuffle) (mat net : Mat) (idxs0 : List ℕ)
    (times seed : ℕ) (g : Rng) :
    (run_perm shuf mat net idxs0 times seed g).norm
      = normOf (matMul mat net)
          (meanOf times (permLoop shuf mat net (absMat (matMul mat net)) times
            (loopInit mat net idxs0 seed)).sum_permuted)
          (varOf times (permLoop shuf mat net (absMat (matMul mat net)) times
              (loopInit mat net idxs0 seed)).sum_squares_permuted
            (meanOf times (permLoop shuf mat net (absMat (matMul mat net)) times
              (loopInit mat net idxs0 seed)).sum_permuted)) := rfl

theorem shaped_pvalsFromCounts {m p : ℕ} {C : Mat} (hC : Shaped m p C) (times : ℕ) :
    Shaped m p (pvalsFromCounts times C) :=
  shaped_mapMat _ (shaped_mapMat _ (shaped_mapMat _ (shaped_mapMat _ (shaped_mapMat _ hC))))

theorem run_perm_pvals_shaped (shuf : Shuffle) (mat net : Mat) (idxs0 : List ℕ)
    (times seed : ℕ) (g : Rng)
    (hnet : ∀ r ∈ net, r.length = nCols net)
    (hshuf : ∀ gs xs, (shuf gs xs).1.Perm xs)
    (hidx : idxs0.Perm (List.range net.length)) :
    Shaped mat.length (nCols net) (run_perm shuf mat net idxs0 times seed g).pvals := by
  rw [run_perm_pvals]
  exact shaped_pvalsFromCounts
    (permLoop_invariant shuf mat net idxs0 seed hnet hshuf hidx times).1 times

theorem run_perm_pvals_entry (shuf : Shuffle) (mat net : Mat) (idxs0 : List ℕ)
    (times seed : ℕ) (g : Rng)
    (hnet : ∀ r ∈ net, r.length = nCols net)
    (hshuf : ∀ gs xs, (shuf gs xs).1.Perm xs)
    (hidx : idxs0.Perm (List.range net.length))
    {i j : ℕ} (hi : i < mat.length) (hj : j < nCols net) :
    entry (run_perm shuf mat net idxs0 times seed g).pvals i j
      = pvalScalar times ((specCount shuf mat net idxs0 times seed i j : ℚ)) := by
  obtain ⟨hP, _, _, hE⟩ := permLoop_invariant shuf mat net idxs0 seed hnet hshuf hidx times
  rw [run_perm_pvals, entry_pvalsFromCounts hP times hi hj, (hE i hi j hj).1]

/-! ## A concrete shuffle used for witnesses: rotate the buffer left by one,
advancing the draw counter. -/

def rotShuf : Shuffle := fun g xs => (xs.drop 1 ++ xs.take 1, (g.1, g.2 + 1))

theorem rotShuf_perm : ∀ g xs, (rotShuf g xs).1.Perm xs := by
  intro g xs
  have h1 : (xs.drop 1 ++ xs.take 1).Perm (xs.take 1 ++ xs.drop 1) :=
    List.perm_append_comm
  rw [List.take_append_drop] at h1
  exact h1

/-! ## Claim C1 -/

/-- C1: for every dense sample-by-feature matrix, rectangular weight matrix,
index buffer holding a permutation of the feature indices, and permutation
count `times ≥ 2`, `run_perm` computes the empirical p-value matrix by
counting, over `times` in-place reshuffles of the buffer, the iterations
where `|mat · net[shuffled]|` strictly exceeds `|mat · net|` elementwise,
then replacing a count of 0 by 1 and a count of `times` by `times - 1`,
dividing by `times`, and folding two-sided as `p = 2 * min(p, 1 - p)`. -/
theorem C1_run_perm_empirical_pvals (shuf : Shuffle) (mat net : Mat)
    (idxs0 : List ℕ) (times seed : ℕ) (g : Rng)
    (hnet : ∀ r ∈ net, r.length = nCols net)
    (hshuf : ∀ gs xs, (shuf gs xs).1.Perm xs)
    (hidx : idxs0.Perm (List.range net.length))
    (h2 : 2 ≤ times) :
    (run_perm shuf mat net idxs0 times seed g).pvals
      = specPvals shuf mat net idxs0 times seed := by
  unfold specPvals
  apply shaped_eq_of_entry
    (run_perm_pvals_shaped shuf mat net idxs0 times seed g hnet hshuf hidx)
  intro i hi j hj
  rw [run_perm_pvals_entry shuf mat net idxs0 times seed g hnet hshuf hidx hi hj,
    pvalScalar_eq_specPval times _ h2]

theorem C1_witness :
    (run_perm rotShuf [[1, 0, 0], [1, 0, 0]] [[1], [5], [0]] (List.range 3) 4 0 (0, 0)).pvals
      = specPvals rotShuf [[1, 0, 0], [1, 0, 0]] [[1], [5], [0]] (List.range 3) 4 0 :=
  C1_run_perm_empirical_pvals rotShuf [[1, 0, 0], [1, 0, 0]] [[1], [5], [0]]
    (List.range 3) 4 0 (0, 0) (by simp [nCols]) rotShuf_perm (List.Perm.refl _)
    (by norm_num)

/-! ## Claim C8 -/

/-- C8: for permutation count `times ≥ 2`, every entry of the returned
p-value matrix lies in the half-open interval `(0, 1]`: never exactly 0,
because a raw exceedance count of 0 is replaced by 1 and a count of
`times` by `times - 1` before dividing and folding. -/
theorem C8_pvals_in_unit_interval (shuf : Shuffle) (mat net : Mat)
    (idxs0 : List ℕ) (times seed : ℕ) (g : Rng)
    (hnet : ∀ r ∈ net, r.length = nCols net)
    (hshuf : ∀ gs xs, (shuf gs xs).1.Perm xs)
    (hidx : idxs0.Perm (List.range net.length))
    (h2 : 2 ≤ times) {i j : ℕ} (hi : i < mat.length) (hj : j < nCols net) :
    0 < entry (run_perm shuf mat net idxs0 times seed g).pvals i j
      ∧ entry (run_perm shuf mat net idxs0 times seed g).pvals i j ≤ 1 := by
  rw [run_perm_pvals_entry shuf mat net idxs0 times seed g hnet hshuf hidx hi hj,
    pvalScalar_eq_specPval times _ h2]
  obtain ⟨hlo, hhi⟩ := specPval_bounds times _ h2
    (specCount_le shuf mat net idxs0 times seed i j)
  have htpos : (0 : ℚ) < (times : ℚ) := by
    have : (2 : ℚ) ≤ (times : ℚ) := by exact_mod_cast h2
    linarith
  have h0 : (0 : ℚ) < 2 / (times : ℚ) := by positivity
  exact ⟨lt_of_lt_of_le h0 hlo, hhi⟩

theorem C8_witness :
    0 < entry (run_perm rotShuf [[1, 0, 0], [1, 0, 0]] [[1], [5], [0]]
        (List.range 3) 4 0 (0, 0)).pvals 0 0
      ∧ entry (run_perm rotShuf [[1, 0, 0], [1, 0, 0]] [[1], [5], [0]]
        (List.range 3) 4 0 (0, 0)).pvals 0 0 ≤ 1 :=
  C8_pvals_in_unit_interval rotShuf [[1, 0, 0], [1, 0, 0]] [[1], [5], [0]]
    (List.range 3) 4 0 (0, 0) (by simp [nCols]) rotShuf_perm (List.Perm.refl _)
    (by norm_num) (by norm_num) (by simp [nCols])

/-! ## Claim C10 -/

/-- C10: for permutation count `times ≥ 2`, every returned p-value is at
least `2/times` and at most 1, and it equals 1 exactly when the
boundary-corrected exceedance count equals `times / 2`. -/
theorem C10_pvals_lower_bound (shuf : Shuffle) (mat net : Mat)
    (idxs0 : List ℕ) (times seed : ℕ) (g : Rng)
    (hnet : ∀ r ∈ net, r.length = nCols net)
    (hshuf : ∀ gs xs, (shuf gs xs).1.Perm xs)
    (hidx : idxs0.Perm (List.range net.length))
    (h2 : 2 ≤ times) {i j : ℕ} (hi : i < mat.length) (hj : j < nCols net) :
    2 / (times : ℚ) ≤ entry (run_perm shuf mat net idxs0 times seed g).pvals i j
      ∧ entry (run_perm shuf mat net idxs0 times seed g).pvals i j ≤ 1
      ∧ (entry (run_perm shuf mat net idxs0 times seed g).pvals i j = 1
          ↔ specCorrect times (specCount shuf mat net idxs0 times seed i j)
              = (times : ℚ) / 2) := by
  rw [run_perm_pvals_entry shuf mat net idxs0 times seed g hnet hshuf hidx hi hj,
    pvalScalar_eq_specPval times _ h2]
  obtain ⟨hlo, hhi⟩ := specPval_bounds times _ h2
    (specCount_le shuf mat net idxs0 times seed i j)
  exact ⟨hlo, hhi, specPval_eq_one_iff times _ h2⟩

theorem C10_witness :
    2 / ((4 : ℕ) : ℚ) ≤ entry (run_perm rotShuf [[1, 0, 0], [1, 0, 0]] [[1], [5], [0]]
        (List.range 3) 4 0 (0, 0)).pvals 1 0
      ∧ entry (run_perm rotShuf [[1, 0, 0], [1, 0, 0]] [[1], [5], [0]]
        (List.range 3) 4 0 (0, 0)).pvals 1 0 ≤ 1
      ∧ (entry (run_perm rotShuf [[1, 0, 0], [1, 0, 0]] [[1], [5], [0]]
          (List.range 3) 4 0 (0, 0)).pvals 1 0 = 1
          ↔ specCorrect 4 (specCount rotShuf [[1, 0, 0], [1, 0, 0]] [[1], [5], [0]]
              (List.range 3) 4 0 1 0) = ((4 : ℕ) : ℚ) / 2) :=
  C10_pvals_lower_bound rotShuf [[1, 0, 0], [1, 0, 0]] [[1], [5], [0]]
    (List.range 3) 4 0 (0, 0) (by simp [nCols]) rotShuf_perm (List.Perm.refl _)
    (by norm_num) (by norm_num) (by simp [nCols])

/-! ## Claim C2 -/

/-- Mean of the permuted statistic over the iterations, from the spec:
`sum_permuted / T`. -/
def specMean (shuf : Shuffle) (mat net : Mat) (idxs0 : List ℕ) (times seed i j : ℕ) : ℚ :=
  specSum shuf mat net idxs0 times seed i j / (times : ℚ)

/-- Variance of the permuted statistic, from the spec:
`sum_squares/T - mean^2 * T/(T-1)`. -/
def specVar (shuf : Shuffle) (mat net : Mat) (idxs0 : List ℕ) (times seed i j : ℕ) : ℚ :=
  specSumSq shuf mat net idxs0 times seed i j / (times : ℚ)
    - specMean shuf mat net idxs0 times seed i j ^ 2 * (times : ℚ) / ((times : ℚ) - 1)

/-- Modelled from the spec: the textbook unbiased sample variance
`(sum of squares - T * mean^2) / (T - 1)`, which the spec contrasts with
the formula the code uses. -/
def textbookVarOf (times : ℕ) (sum_squares mean : Mat) : Mat :=
  map2 (fun s mu => (s - (times : ℚ) * (mu * mu)) / ((times : ℚ) - 1)) sum_squares mean

theorem entryR_normOf {m p : ℕ} {E Mu V : Mat} (hE : Shaped m p E) (hMu : Shaped m p Mu)
    (hV : Shaped m p V) {i j : ℕ} (hi : i < m) (hj : j < p) :
    entryR (normOf E Mu V) i j
      = ((entry E i j - entry Mu i j : ℚ) : ℝ) / Real.sqrt ((entry V i j : ℚ) : ℝ) := by
  unfold normOf entryR
  rw [getD2_zipWith _ (shaped_map2 _ hE hMu) hV hi hj 0 0 0]
  rw [show ((map2 (fun e mu => e - mu) E Mu).getD i []).getD j 0
      = entry (map2 (fun e mu => e - mu) E Mu) i j from rfl]
  rw [entry_map2 _ hE hMu hi hj]
  rfl

/-- C2: for `times ≥ 2` the z-score of `run_perm` is exactly
`(estimate - mean)/sqrt(variance)` with `mean = sum_permuted/T` and the
variance computed by `sum_squares/T - mean^2 * T/(T-1)` — and this variance
formula differs from the textbook unbiased-variance formula. -/
theorem C2_norm_formula (shuf : Shuffle) (mat net : Mat)
    (idxs0 : List ℕ) (times seed : ℕ) (g : Rng)
    (hnet : ∀ r ∈ net, r.length = nCols net)
    (hshuf : ∀ gs xs, (shuf gs xs).1.Perm xs)
    (hidx : idxs0.Perm (List.range net.length))
    (_h2 : 2 ≤ times) {i j : ℕ} (hi : i < mat.length) (hj : j < nCols net) :
    entryR (run_perm shuf mat net idxs0 times seed g).norm i j
      = (((entry (matMul mat net) i j : ℚ) : ℝ)
          - ((specMean shuf mat net idxs0 times seed i j : ℚ) : ℝ))
          / Real.sqrt ((specVar shuf mat net idxs0 times seed i j : ℚ) : ℝ)
      ∧ varOf 2 [[4]] [[1]] ≠ textbookVarOf 2 [[4]] [[1]] := by
  constructor
  · obtain ⟨hP, hS, hQ, hE⟩ := permLoop_invariant shuf mat net idxs0 seed hnet hshuf hidx times
    obtain ⟨e1, e2, e3⟩ := hE i hi j hj
    have hMuSh : Shaped mat.length (nCols net)
        (meanOf times (permLoop shuf mat net (absMat (matMul mat net)) times
          (loopInit mat net idxs0 seed)).sum_permuted) := shaped_mapMat _ hS
    have hVSh : Shaped mat.length (nCols net)
        (varOf times (permLoop shuf mat net (absMat (matMul mat net)) times
            (loopInit mat net idxs0 seed)).sum_squares_permuted
          (meanOf times (permLoop shuf mat net (absMat (matMul mat net)) times
            (loopInit mat net idxs0 seed)).sum_permuted)) := shaped_map2 _ hQ hMuSh
    rw [run_perm_norm,
      entryR_normOf (shaped_matMul mat net) hMuSh hVSh hi hj]
    have hMuE : entry (meanOf times (permLoop shuf mat net (absMat (matMul mat net)) times
        (loopInit mat net idxs0 seed)).sum_permuted) i j
        = specMean shuf mat net idxs0 times seed i j := by
      unfold meanOf specMean
      rw [entry_mapMat _ hS hi hj, e2]
    have hVE : entry (varOf times (permLoop shuf mat net (absMat (matMul mat net)) times
          (loopInit mat net idxs0 seed)).sum_squares_permuted
        (meanOf times (permLoop shuf mat net (absMat (matMul mat net)) times
          (loopInit mat net idxs0 seed)).sum_permuted)) i j
        = specVar shuf mat net idxs0 times seed i j := by
      unfold varOf specVar
      rw [entry_map2 _ hQ hMuSh hi hj, e3, hMuE]
      unfold specMean
      ring
    rw [hMuE, hVE]
    push_cast
    ring_nf
  · intro h
    have h0 : entry (varOf 2 [[4]] [[1]]) 0 0 = entry (textbookVarOf 2 [[4]] [[1]]) 0 0 := by
      rw [h]
    simp [varOf, textbookVarOf, map2, entry] at h0
    norm_num at h0

theorem C2_witness :
    entryR (run_perm rotShuf [[1, 0, 0], [1, 0, 0]] [[1], [5], [0]]
        (List.range 3) 4 0 (0, 0)).norm 0 0
      = (((entry (matMul [[1, 0, 0], [1, 0, 0]] [[1], [5], [0]]) 0 0 : ℚ) : ℝ)
          - ((specMean rotShuf [[1, 0, 0], [1, 0, 0]] [[1], [5], [0]]
              (List.range 3) 4 0 0 0 : ℚ) : ℝ))
          / Real.sqrt ((specVar rotShuf [[1, 0, 0], [1, 0, 0]] [[1], [5], [0]]
              (List.range 3) 4 0 0 0 : ℚ) : ℝ)
      ∧ varOf 2 [[4]] [[1]] ≠ textbookVarOf 2 [[4]] [[1]] :=
  C2_norm_formula rotShuf [[1, 0, 0], [1, 0, 0]] [[1], [5], [0]] (List.range 3) 4 0
    (0, 0) (by simp [nCols]) rotShuf_perm (List.Perm.refl _) (by norm_num)
    (by norm_num) (by simp [nCols])

/-! ## Batching machinery of `wsum` -/

theorem matMul_append (A B net : Mat) :
    matMul (A ++ B) net = matMul A net ++ matMul B net := by
  unfold matMul
  exact List.map_append _ _ _

/-- Ceiling division dominates: `n ≤ ceil(n / b) * b`. -/
theorem le_ceil_mul (n b : ℕ) (hb : 0 < b) : n ≤ ((n + b - 1) / b) * b := by
  have h := Nat.div_add_mod (n + b - 1) b
  have hmod : (n + b - 1) % b < b := Nat.mod_lt _ hb
  have hcomm : ((n + b - 1) / b) * b = b * ((n + b - 1) / b) := Nat.mul_comm _ _
  omega

/-- The per-batch recursion the specification describes: process the
leading `batch_size` rows, then recurse on the remaining rows, threading
the shared index buffer and generator state; `k` is the number of
batches. -/
def runBatches (engine : Engine) (net : Mat) (times batch_size seed : ℕ) :
    ℕ → Mat → BatchState → BatchState
  | 0, _, st => st
  | k + 1, mat, st =>
      runBatches engine net times batch_size seed k (mat.drop batch_size)
        (wsumBatchStep engine mat net times batch_size seed st 0)

/-- The indexed batch loop of `wsum` is the specification's chunk
recursion. -/
theorem foldl_batches (engine : Engine) (net : Mat) (times b seed : ℕ) :
    ∀ (k : ℕ) (mat : Mat) (st : BatchState),
      (List.range k).foldl (wsumBatchStep engine mat net times b seed) st
        = runBatches engine net times b seed k mat st := by
  intro k
  induction k with
  | zero => intro mat st; rfl
  | succ k ih =>
    intro mat st
    rw [List.range_succ_eq_map, List.foldl_cons, List.foldl_map]
    have hfn : (fun (s : BatchState) (i : ℕ) =>
        wsumBatchStep engine mat net times b seed s (Nat.succ i))
        = wsumBatchStep engine (mat.drop b) net times b seed := by
      funext s i
      unfold wsumBatchStep
      have harg : Nat.succ i * b = b + i * b := by
        rw [Nat.succ_mul]; omega
      rw [harg, ← List.drop_drop]
    rw [hfn, ih (mat.drop b)]
    rfl

/-- In both branches a batch step appends the batch's `estimate` rows,
which are the plain product of the densified slice with `net`. -/
theorem wsumBatchStep_estimate (shuf : Shuffle) (mat net : Mat)
    (times b seed : ℕ) (st : BatchState) (i : ℕ) :
    (wsumBatchStep (run_perm shuf) mat net times b seed st i).estimate
      = st.estimate ++ matMul ((mat.drop (i * b)).take b) net := by
  unfold wsumBatchStep
  split_ifs with h
  · rfl
  · rfl

theorem runBatches_estimate (shuf : Shuffle) (net : Mat) (times b seed : ℕ) :
    ∀ (k : ℕ) (mat : Mat) (st : BatchState), mat.length ≤ k * b →
      (runBatches (run_perm shuf) net times b seed k mat st).estimate
        = st.estimate ++ matMul mat net := by
  intro k
  induction k with
  | zero =>
    intro mat st hlen
    have : mat = [] := List.length_eq_zero.1 (Nat.le_zero.1 (by simpa using hlen))
    subst this
    simp [runBatches, matMul]
  | succ k ih =>
    intro mat st hlen
    have hlen' : (mat.drop b).length ≤ k * b := by
      rw [List.length_drop]
      have hsb : (k + 1) * b = k * b + b := by ring
      omega
    show (runBatches (run_perm shuf) net times b seed k (mat.drop b)
        (wsumBatchStep (run_perm shuf) mat net times b seed st 0)).estimate = _
    rw [ih (mat.drop b) _ hlen', wsumBatchStep_estimate]
    rw [Nat.zero_mul, List.drop_zero, List.append_assoc, ← matMul_append,
      List.take_append_drop]

/-- The `estimate` output of `wsum` is always the plain product of the
input rows with the weight matrix, whatever the permutation count. -/
theorem wsum_estimate_matMul (shuf : Shuffle) (input : MatInput) (net : Mat)
    (times b seed : ℕ) (g : Rng) (hb : 0 < b) :
    (wsum shuf input net times b seed g).estimate = matMul input.rows net := by
  cases input with
  | dense mat =>
    simp only [wsum, wsumWith, MatInput.rows]
    split_ifs with h
    · rfl
    · rfl
  | sparse mat =>
    simp only [wsum, wsumWith, MatInput.rows]
    rw [foldl_batches]
    split_ifs with h
    · show (runBatches (run_perm shuf) net times b seed
          ((mat.length + b - 1) / b) mat ⟨[], [], [], [], List.range net.length, g⟩).estimate = _
      rw [runBatches_estimate shuf net times b seed _ mat _
        (le_ceil_mul mat.length b hb)]
      exact List.nil_append _
    · show (runBatches (run_perm shuf) net times b seed
          ((mat.length + b - 1) / b) mat ⟨[], [], [], [], List.range net.length, g⟩).estimate = _
      rw [runBatches_estimate shuf net times b seed _ mat _
        (le_ceil_mul mat.length b hb)]
      exact List.nil_append _

/-! ## Claim C5 -/

/-- C5: for every input, weight matrix, positive batch size and seed, the
`estimate` returned by `wsum` is exactly the matrix product of the input
rows with `net`, independent of the permutation count `times`. -/
theorem C5_estimate_exact (shuf : Shuffle) (input : MatInput) (net : Mat)
    (times b seed : ℕ) (g : Rng) (hb : 0 < b) :
    (wsum shuf input net times b seed g).estimate = matMul input.rows net :=
  wsum_estimate_matMul shuf input net times b seed g hb

theorem C5_witness :
    (wsum rotShuf (.sparse [[1, 0, 0], [1, 0, 0]]) [[1], [5], [0]] 4 1 0 (0, 0)).estimate
      = matMul (MatInput.sparse [[1, 0, 0], [1, 0, 0]]).rows [[1], [5], [0]] :=
  C5_estimate_exact rotShuf (.sparse [[1, 0, 0], [1, 0, 0]]) [[1], [5], [0]] 4 1 0
    (0, 0) (by norm_num)

/-! ## State-independence of the batch loop -/

/-- One batch step is insensitive to the incoming generator-state slot, and
more generally to replacing the engine by one that agrees whenever
`1 < times`, provided the visible state components agree. -/
theorem wsumBatchStep_ext (e1 e2 : Engine) (mat net : Mat) (times b seed : ℕ)
    (hE : ∀ tmp idxs g1 g2, 1 < times →
      e1 tmp net idxs times seed g1 = e2 tmp net idxs times seed g2)
    (st1 st2 : BatchState) (h1 : st1.estimate = st2.estimate)
    (h2 : st1.norm = st2.norm) (h3 : st1.corr = st2.corr)
    (h4 : st1.pvals = st2.pvals) (h5 : st1.idxs = st2.idxs) (i : ℕ) :
    (wsumBatchStep e1 mat net times b seed st1 i).estimate
        = (wsumBatchStep e2 mat net times b seed st2 i).estimate
      ∧ (wsumBatchStep e1 mat net times b seed st1 i).norm
        = (wsumBatchStep e2 mat net times b seed st2 i).norm
      ∧ (wsumBatchStep e1 mat net times b seed st1 i).corr
        = (wsumBatchStep e2 mat net times b seed st2 i).corr
      ∧ (wsumBatchStep e1 mat net times b seed st1 i).pvals
        = (wsumBatchStep e2 mat net times b seed st2 i).pvals
      ∧ (wsumBatchStep e1 mat net times b seed st1 i).idxs
        = (wsumBatchStep e2 mat net times b seed st2 i).idxs := by
  unfold wsumBatchStep
  by_cases h : 1 < times
  · have heng : e1 ((mat.drop (i * b)).take b) net st1.idxs times seed st1.g
        = e2 ((mat.drop (i * b)).take b) net st2.idxs times seed st2.g := by
      rw [h5]
      exact hE _ _ _ _ h
    refine ⟨?_, ?_, ?_, ?_, ?_⟩ <;> simp [if_pos h, heng, h1, h2, h3, h4]
  · refine ⟨?_, ?_, ?_, ?_, ?_⟩ <;> simp [if_neg h, h1, h2, h3, h4, h5]

theorem foldl_batches_ext (e1 e2 : Engine) (mat net : Mat) (times b seed : ℕ)
    (hE : ∀ tmp idxs g1 g2, 1 < times →
      e1 tmp net idxs times seed g1 = e2 tmp net idxs times seed g2) :
    ∀ (l : List ℕ) (st1 st2 : BatchState), st1.estimate = st2.estimate →
      st1.norm = st2.norm → st1.corr = st2.corr → st1.pvals = st2.pvals →
      st1.idxs = st2.idxs →
      (l.foldl (wsumBatchStep e1 mat net times b seed) st1).estimate
          = (l.foldl (wsumBatchStep e2 mat net times b seed) st2).estimate
        ∧ (l.foldl (wsumBatchStep e1 mat net times b seed) st1).norm
          = (l.foldl (wsumBatchStep e2 mat net times b seed) st2).norm
        ∧ (l.foldl (wsumBatchStep e1 mat net times b seed) st1).corr
          = (l.foldl (wsumBatchStep e2 mat net times b seed) st2).corr
        ∧ (l.foldl (wsumBatchStep e1 mat net times b seed) st1).pvals
          = (l.foldl (wsumBatchStep e2 mat net times b seed) st2).pvals
        ∧ (l.foldl (wsumBatchStep e1 mat net times b seed) st1).idxs
          = (l.foldl (wsumBatchStep e2 mat net times b seed) st2).idxs := by
  intro l
  induction l with
  | nil =>
    intro st1 st2 h1 h2 h3 h4 h5
    exact ⟨h1, h2, h3, h4, h5⟩
  | cons i l ih =>
    intro st1 st2 h1 h2 h3 h4 h5
    obtain ⟨s1, s2, s3, s4, s5⟩ :=
      wsumBatchStep_ext e1 e2 mat net times b seed hE st1 st2 h1 h2 h3 h4 h5 i
    exact ih _ _ s1 s2 s3 s4 s5

/-! ## Claim C6 -/

/-- The unused incoming generator argument of `run_perm` (overwritten by
the seeding) never influences the result. -/
theorem run_perm_g_irrel (shuf : Shuffle) (mat net : Mat) (idxs0 : List ℕ)
    (times seed : ℕ) (g g' : Rng) :
    run_perm shuf mat net idxs0 times seed g
      = run_perm shuf mat net idxs0 times seed g' := rfl

/-- C6: for a fixed input, weight matrix, seed, permutation count and batch
size, `wsum` returns identical outputs whatever the ambient generator
state at call time: the generator is reseeded inside every engine
invocation and the index buffer is freshly initialised on each call, so no
state leaks between runs. -/
theorem C6_reproducible (shuf : Shuffle) (input : MatInput) (net : Mat)
    (times b seed : ℕ) (g g' : Rng) :
    wsum shuf input net times b seed g = wsum shuf input net times b seed g' := by
  cases input with
  | dense mat =>
    simp only [wsum, wsumWith]
    rw [run_perm_g_irrel shuf mat net (List.range net.length) times seed g g']
  | sparse mat =>
    simp only [wsum, wsumWith]
    obtain ⟨h1, h2, h3, h4, _⟩ := foldl_batches_ext (run_perm shuf) (run_perm shuf)
      mat net times b seed
      (fun tmp idxs g1 g2 _ => run_perm_g_irrel shuf tmp net idxs times seed g1 g2)
      (List.range ((mat.length + b - 1) / b))
      ⟨[], [], [], [], List.range net.length, g⟩
      ⟨[], [], [], [], List.range net.length, g'⟩ rfl rfl rfl rfl rfl
    split_ifs with h
    · rw [WsumOut.mk.injEq]
      exact ⟨h1, by rw [h2], by rw [h3], by rw [h4]⟩
    · rw [WsumOut.mk.injEq]
      exact ⟨h1, rfl, rfl, rfl⟩

/-! ## Claim C4 -/

/-- C4: when the permutation count is 0 or 1, `wsum` returns
`norm = corr = pvals = none` and `estimate = mat · net`, and the result
does not depend on the shuffle behaviour or on the generator state — the
random generator is never invoked. -/
theorem C4_no_permutation (shuf shuf' : Shuffle) (input : MatInput) (net : Mat)
    (times b seed : ℕ) (g g' : Rng) (ht : times ≤ 1) (hb : 0 < b) :
    wsum shuf input net times b seed g = wsum shuf' input net times b seed g'
      ∧ (wsum shuf input net times b seed g).norm = none
      ∧ (wsum shuf input net times b seed g).corr = none
      ∧ (wsum shuf input net times b seed g).pvals = none
      ∧ (wsum shuf input net times b seed g).estimate = matMul input.rows net := by
  have hnt : ¬ 1 < times := by omega
  refine ⟨?_, ?_, ?_, ?_, wsum_estimate_matMul shuf input net times b seed g hb⟩
  · cases input with
    | dense mat => simp [wsum, wsumWith, hnt]
    | sparse mat =>
      simp only [wsum, wsumWith]
      obtain ⟨h1, _, _, _, _⟩ := foldl_batches_ext (run_perm shuf) (run_perm shuf')
        mat net times b seed (fun tmp idxs g1 g2 hlt => absurd hlt hnt)
        (List.range ((mat.length + b - 1) / b))
        ⟨[], [], [], [], List.range net.length, g⟩
        ⟨[], [], [], [], List.range net.length, g'⟩ rfl rfl rfl rfl rfl
      rw [if_neg hnt, if_neg hnt, WsumOut.mk.injEq]
      exact ⟨h1, rfl, rfl, rfl⟩
  · cases input <;> simp [wsum, wsumWith, hnt]
  · cases input <;> simp [wsum, wsumWith, hnt]
  · cases input <;> simp [wsum, wsumWith, hnt]

theorem C4_witness :
    wsum rotShuf (.sparse [[1, 0, 0], [1, 0, 0]]) [[1], [5], [0]] 1 1 0 (0, 0)
        = wsum (fun g xs => (xs, g)) (.sparse [[1, 0, 0], [1, 0, 0]]) [[1], [5], [0]] 1 1 0 (7, 7)
      ∧ (wsum rotShuf (.sparse [[1, 0, 0], [1, 0, 0]]) [[1], [5], [0]] 1 1 0 (0, 0)).norm = none
      ∧ (wsum rotShuf (.sparse [[1, 0, 0], [1, 0, 0]]) [[1], [5], [0]] 1 1 0 (0, 0)).corr = none
      ∧ (wsum rotShuf (.sparse [[1, 0, 0], [1, 0, 0]]) [[1], [5], [0]] 1 1 0 (0, 0)).pvals = none
      ∧ (wsum rotShuf (.sparse [[1, 0, 0], [1, 0, 0]]) [[1], [5], [0]] 1 1 0 (0, 0)).estimate
          = matMul (MatInput.sparse [[1, 0, 0], [1, 0, 0]]).rows [[1], [5], [0]] :=
  C4_no_permutation rotShuf (fun g xs => (xs, g)) (.sparse [[1, 0, 0], [1, 0, 0]])
    [[1], [5], [0]] 1 1 0 (0, 0) (7, 7) (by norm_num) (by norm_num)

/-! ## Claim C9 -/

/-- C9: the batching driver evaluates its permutation engine only under the
`times > 1` guard — any two engines that agree whenever `times > 1` give
identical `wsum` results — and under that guard the divisor `times - 1` of
the variance formula is nonzero. -/
theorem C9_engine_guarded (e1 e2 : Engine) (input : MatInput) (net : Mat)
    (times b seed : ℕ) (g : Rng)
    (hE : ∀ mat' net' idxs' times' seed' g', 1 < times' →
      e1 mat' net' idxs' times' seed' g' = e2 mat' net' idxs' times' seed' g') :
    wsumWith e1 input net times b seed g = wsumWith e2 input net times b seed g
      ∧ (1 < times → ((times : ℚ) - 1) ≠ 0) := by
  constructor
  · cases input with
    | dense mat =>
      simp only [wsumWith]
      split_ifs with h
      · rw [hE _ _ _ _ _ _ h]
      · rfl
    | sparse mat =>
      simp only [wsumWith]
      have hstep : wsumBatchStep e1 mat net times b seed
          = wsumBatchStep e2 mat net times b seed := by
        funext st i
        unfold wsumBatchStep
        by_cases h : 1 < times
        · rw [if_pos h, if_pos h, hE _ _ _ _ _ _ h]
        · rw [if_neg h, if_neg h]
      rw [hstep]
  · intro h heq
    have h2 : (2 : ℚ) ≤ (times : ℚ) := by exact_mod_cast h
    linarith

/-- An engine that is garbage for `times ≤ 1` and agrees with `run_perm`
otherwise; used to exhibit that the `times ≤ 1` behaviour of the engine is
unreachable from `wsum`. -/
noncomputable def guardedEngine : Engine := fun mat net idxs times seed g =>
  if 1 < times then run_perm rotShuf mat net idxs times seed g
  else ⟨[[37]], [], [], [[37]], [], (0, 0)⟩

theorem C9_witness :
    wsumWith (run_perm rotShuf) (.dense [[1]]) [[2]] 1 3 0 (0, 0)
        = wsumWith guardedEngine (.dense [[1]]) [[2]] 1 3 0 (0, 0)
      ∧ (1 < 1 → (((1 : ℕ) : ℚ) - 1) ≠ 0) :=
  C9_engine_guarded (run_perm rotShuf) guardedEngine (.dense [[1]]) [[2]] 1 3 0 (0, 0)
    (fun mat' net' idxs' times' seed' g' h => by simp [guardedEngine, h])

/-! ## Claim C3 -/

/-- C3: the sparse-path results of `wsum` are not invariant under the
choice of `batch_size`: because each batch's engine call reseeds the
generator with the same seed while the shared index buffer carries its
shuffled content across batches, there are inputs (and a genuinely
permuting deterministic shuffle) on which two batch sizes give different
p-values. -/
theorem C3_not_batch_size_invariant :
    ∃ (shuf : Shuffle) (mat net : Mat) (times seed b1 b2 : ℕ) (g : Rng),
      2 ≤ times ∧ b1 ≠ b2 ∧ 0 < b1 ∧ 0 < b2
        ∧ (∀ gs xs, (shuf gs xs).1.Perm xs)
        ∧ (wsum shuf (.sparse mat) net times b1 seed g).pvals
            ≠ (wsum shuf (.sparse mat) net times b2 seed g).pvals := by
  refine ⟨rotShuf, [[1, 0, 0], [1, 0, 0]], [[1], [5], [0]], 4, 0, 1, 2, (0, 0),
    by norm_num, by norm_num, by norm_num, by norm_num, rotShuf_perm, ?_⟩
  have h1 : (wsum rotShuf (.sparse [[1, 0, 0], [1, 0, 0]]) [[1], [5], [0]]
      4 1 0 (0, 0)).pvals = some [[1], [1 / 2]] := by
    with_unfolding_all rfl
  have h2 : (wsum rotShuf (.sparse [[1, 0, 0], [1, 0, 0]]) [[1], [5], [0]]
      4 2 0 (0, 0)).pvals = some [[1], [1]] := by
    with_unfolding_all rfl
  rw [h1, h2]
  simp

/-! ## Claim C7 -/

theorem ceil_div_one (n b : ℕ) (h0 : 0 < n) (hle : n ≤ b) :
    (n + b - 1) / b = 1 := by
  have hb : 0 < b := lt_of_lt_of_le h0 hle
  have hlo : 1 * b ≤ n + b - 1 := by omega
  have hhi : n + b - 1 < (1 + 1) * b := by omega
  exact Nat.div_eq_of_lt_le hlo hhi

/-- On an empty input matrix every accumulator of the permutation loop
stays empty. -/
theorem permLoop_nil (shuf : Shuffle) (net E : Mat) (times : ℕ) :
    ∀ (idxs : List ℕ) (g : Rng),
      (permLoop shuf [] net E times ⟨[], [], [], idxs, g⟩).pvals = []
      ∧ (permLoop shuf [] net E times ⟨[], [], [], idxs, g⟩).sum_permuted = []
      ∧ (permLoop shuf [] net E times ⟨[], [], [], idxs, g⟩).sum_squares_permuted = [] := by
  induction times with
  | zero => intro idxs g; exact ⟨rfl, rfl, rfl⟩
  | succ n ih =>
    intro idxs g
    have hstep : permIter shuf [] net E ⟨[], [], [], idxs, g⟩
        = ⟨[], [], [], (shuf g idxs).1, (shuf g idxs).2⟩ := by
      simp [permIter, addMat, map2, exceedMat, absMat]
    show (permLoop shuf [] net E n (permIter shuf [] net E ⟨[], [], [], idxs, g⟩)).pvals = []
        ∧ _ ∧ _
    rw [hstep]
    exact ih _ _

/-- C7: dispatch and batching of `wsum`.  Dense input runs the engine once
on the whole input with no batching; sparse input processes
`ceil(n_samples / batch_size)` batches in increasing row order, assembling
the per-batch outputs in order; a batch size at least the sample count
collapses to the dense single-call behaviour; and zero samples or zero
regulons yield empty-shaped outputs. -/
theorem C7_dispatch_and_batching (shuf : Shuffle) (mat net : Mat)
    (times b seed : ℕ) (g : Rng) (hb : 0 < b) :
    (1 < times →
      wsum shuf (.dense mat) net times b seed g
        = ⟨(run_perm shuf mat net (List.range net.length) times seed g).estimate,
            some (run_perm shuf mat net (List.range net.length) times seed g).norm,
            some (run_perm shuf mat net (List.range net.length) times seed g).corr,
            some (run_perm shuf mat net (List.range net.length) times seed g).pvals⟩)
    ∧ wsum shuf (.sparse mat) net times b seed g
        = ⟨(runBatches (run_perm shuf) net times b seed ((mat.length + b - 1) / b) mat
              ⟨[], [], [], [], List.range net.length, g⟩).estimate,
            if 1 < times then some (runBatches (run_perm shuf) net times b seed
              ((mat.length + b - 1) / b) mat
              ⟨[], [], [], [], List.range net.length, g⟩).norm else none,
            if 1 < times then some (runBatches (run_perm shuf) net times b seed
              ((mat.length + b - 1) / b) mat
              ⟨[], [], [], [], List.range net.length, g⟩).corr else none,
            if 1 < times then some (runBatches (run_perm shuf) net times b seed
              ((mat.length + b - 1) / b) mat
              ⟨[], [], [], [], List.range net.length, g⟩).pvals else none⟩
    ∧ (0 < mat.length → mat.length ≤ b →
        wsum shuf (.sparse mat) net times b seed g
          = wsum shuf (.dense mat) net times b seed g)
    ∧ (mat = [] → 1 < times →
        wsum shuf (.sparse mat) net times b seed g = ⟨[], some [], some [], some []⟩
        ∧ wsum shuf (.dense mat) net times b seed g = ⟨[], some [], some [], some []⟩)
    ∧ (nCols net = 0 →
        (wsum shuf (.sparse mat) net times b seed g).estimate
          = mat.map (fun _ => [])) := by
  refine ⟨?_, ?_, ?_, ?_, ?_⟩
  · intro h
    simp [wsum, wsumWith, h]
  · simp only [wsum, wsumWith]
    rw [foldl_batches]
    split_ifs with h <;> rfl
  · intro hpos hle
    have hceil : (mat.length + b - 1) / b = 1 := ceil_div_one mat.length b hpos hle
    simp only [wsum, wsumWith]
    have hr1 : List.range 1 = [0] := by decide
    rw [hceil, hr1, List.foldl_cons, List.foldl_nil]
    have htake : ((mat.drop (0 * b)).take b) = mat := by
      rw [Nat.zero_mul, List.drop_zero]
      exact List.take_of_length_le hle
    unfold wsumBatchStep
    rw [htake]
    split_ifs with h
    · simp
    · simp
  · intro hmat h
    subst hmat
    constructor
    · have hceil0 : (b - 1) / b = 0 := Nat.div_eq_of_lt (by omega)
      simp [wsum, wsumWith, hceil0, h]
    · obtain ⟨hp, _, _⟩ := permLoop_nil shuf net (absMat (matMul [] net)) times
        (List.range net.length) (seedRng seed)
      have hpv : (run_perm shuf [] net (List.range net.length) times seed g).pvals = [] := by
        show pvalsFromCounts times (permLoop shuf [] net (absMat (matMul [] net)) times
          ⟨[], [], [], List.range net.length, seedRng seed⟩).pvals = []
        rw [hp]
        rfl
      simp only [wsum, wsumWith, if_pos h]
      rw [WsumOut.mk.injEq]
      exact ⟨rfl, rfl, rfl, by rw [hpv]⟩
  · intro h0
    rw [wsum_estimate_matMul shuf (.sparse mat) net times b seed g hb]
    simp [matMul, h0, MatInput.rows]

theorem C7_witness :
    wsum rotShuf (.sparse [[1, 2]]) [[3], [4]] 4 5 0 (0, 0)
      = wsum rotShuf (.dense [[1, 2]]) [[3], [4]] 4 5 0 (0, 0) :=
  (C7_dispatch_and_batching rotShuf [[1, 2]] [[3], [4]] 4 5 0 (0, 0)
    (by norm_num)).2.2.1 (by norm_num) (by norm_num)
